import Mathlib

/-
Verification of the MongoDB storage adapter (lightrag/kg/mongo_impl.py).

A shallow embedding: documents are association lists of field values, the
graph collection is a list of node documents, and each operation of the
source is translated into a pure Lean function over these states.  MongoDB
update operators are modelled by their effect on a single collection held
in memory; the async scheduling of the source is sequentialized (claims
are about sequential executions).
-/

namespace MongoImpl

/-- Field values stored inside a document: null, strings, numbers
(rationals stand in for the numeric types), and numeric vectors. -/
inductive Val where
  | vnull : Val
  | vstr : String → Val
  | vnum : ℚ → Val
  | vvec : List ℚ → Val
deriving DecidableEq

/-- A document is an ordered association list of named fields. -/
abbrev Fields := List (String × Val)

/-- Field lookup: first binding of the key wins (documents built by the
operations below carry each key at most once). -/
def getField : Fields → String → Option Val
  | [], _ => none
  | p :: ps, k => if p.1 = k then some p.2 else getField ps k

/-- Remove every binding of a key (the Mongo projection `k : 0` and the
first half of a field overwrite). -/
def removeField : Fields → String → Fields
  | [], _ => []
  | p :: ps, k => if p.1 = k then removeField ps k else p :: removeField ps k

/-- Set a field, overriding any previous binding (Mongo `$set` of one
field, or a Python dict update entry). -/
def setField (fs : Fields) (k : String) (v : Val) : Fields :=
  removeField fs k ++ [(k, v)]

/-- Apply a dict of updates left to right (Mongo `$set` with a document,
or Python `{**base, **upd}` merging). -/
def setFields (fs : Fields) (kvs : Fields) : Fields :=
  kvs.foldl (fun acc p => setField acc p.1 p.2) fs

/-
ClientManager (mongo_impl.py lines 40-74).

The state holds the shared database slot `db` (a handle is a natural
number standing for one opened underlying connection), the reference
count, a counter supplying fresh handles, and the list `live` of
connections opened and not yet torn down.  `live` is the observable the
process-wide uniqueness guarantee speaks about: `get_client` opening a
connection appends it, and the teardown branch of `release_client`
removes it.
-/

/-- State of `ClientManager._instances` plus the bookkeeping of which
underlying connections are live. -/
structure CMState where
  db : Option Nat
  refCount : Int
  nextId : Nat
  live : List Nat
deriving DecidableEq

/-- Initial state: `_instances = {"db": None, "ref_count": 0}`. -/
def cmInit : CMState := ⟨none, 0, 0, []⟩

/-- `ClientManager.get_client`: under the lock, when the slot is empty a
new connection is opened and the reference count reset to zero; then the
count is incremented and the shared handle returned. -/
def get_client (s : CMState) : CMState × Nat :=
  let s1 :=
    if s.db = none then
      { db := some s.nextId, refCount := 0, nextId := s.nextId + 1,
        live := s.live ++ [s.nextId] }
    else s
  ({ s1 with refCount := s1.refCount + 1 }, s1.db.getD 0)

/-- `ClientManager.release_client`: when the released handle is the
current shared one, the count is decremented, and when it reaches zero
the slot is cleared (the connection is torn down). -/
def release_client (s : CMState) (h : Nat) : CMState :=
  if s.db = some h then
    let rc := s.refCount - 1
    if rc = 0 then { s with refCount := rc, db := none, live := s.live.erase h }
    else { s with refCount := rc }
  else s

/-- One call against the ClientManager. -/
inductive CMEvent where
  | acq : CMEvent
  | rel : Nat → CMEvent
deriving DecidableEq

/-- Apply one call to the manager state. -/
def cmStep (s : CMState) : CMEvent → CMState
  | CMEvent.acq => (get_client s).1
  | CMEvent.rel h => release_client s h

/-- Run a sequence of calls from the initial state. -/
def cmRun (evs : List CMEvent) : CMState := evs.foldl cmStep cmInit

/-
MongoGraphStorage (mongo_impl.py lines 329-943).

A node document is `{_id, ...attributes, edges}`; an edge subdocument is
`{target, ...edge_data}` (the edge attributes of the data model carry no
reserved `target` key, so the target is kept as a separate component).
-/

/-- An edge subdocument: the target id plus the remaining edge fields
(`relation` and arbitrary attributes). -/
structure GEdge where
  target : String
  data : Fields
deriving DecidableEq

/-- A node document of the graph collection. -/
structure NodeDoc where
  id : String
  attrs : Fields
  edges : List GEdge
deriving DecidableEq

/-- The graph collection, in insertion order. -/
abbrev Graph := List NodeDoc

/-- `find_one({_id: nid})`: the first document with the given id. -/
def findDoc : Graph → String → Option NodeDoc
  | [], _ => none
  | d :: ds, nid => if d.id = nid then some d else findDoc ds nid

/-- `update_one`: apply an update to the first matching document, if
any (no upsert). -/
def updateFirst (p : NodeDoc → Bool) (f : NodeDoc → NodeDoc) : Graph → Graph
  | [] => []
  | d :: ds => if p d then f d :: ds else d :: updateFirst p f ds

/-- `MongoGraphStorage.upsert_node` (lines 632-639):
`update_one({_id}, {$set: node_data, $setOnInsert: {edges: []}}, upsert)`.
An existing document gets the attributes merge-set; a missing one is
created with the given attributes and an empty edge list. -/
def upsert_node (g : Graph) (nid : String) (nodeData : Fields) : Graph :=
  if (findDoc g nid).isSome then
    updateFirst (fun d => d.id = nid)
      (fun d => { d with attrs := setFields d.attrs nodeData }) g
  else
    g ++ [⟨nid, setFields [] nodeData, []⟩]

/-- The `$pull {edges: {target: tgt}}` step of `upsert_edge`: remove
every edge to `tgt` from the source document. -/
def pullEdge (g : Graph) (src tgt : String) : Graph :=
  updateFirst (fun d => d.id = src)
    (fun d => { d with edges := d.edges.filter (fun e => ¬ e.target = tgt) }) g

/-- The `$push {edges: new_edge}` step of `upsert_edge`: append the new
edge to the source document. -/
def pushEdge (g : Graph) (src : String) (e : GEdge) : Graph :=
  updateFirst (fun d => d.id = src) (fun d => { d with edges := d.edges ++ [e] }) g

/-- `MongoGraphStorage.upsert_edge` (lines 641-661): ensure the source
node exists, pull any existing edge to the target, push the new edge. -/
def upsert_edge (g : Graph) (src tgt : String) (edgeData : Fields) : Graph :=
  pushEdge (pullEdge (upsert_node g src []) src tgt) src ⟨tgt, edgeData⟩

/-- Combined effect of the pull-then-push pair of `upsert_edge` on the
source document. -/
def replaceEdge (tgt : String) (edgeData : Fields) (d : NodeDoc) : NodeDoc :=
  { d with edges := d.edges.filter (fun e => ¬ e.target = tgt) ++ [GEdge.mk tgt edgeData] }

/-- Edge list of the document of a node id, when present. -/
def edgesOf (g : Graph) (nid : String) : Option (List GEdge) :=
  (findDoc g nid).map NodeDoc.edges

/-- Number of edges of one document whose target is `nid`. -/
def inboundCountOf (d : NodeDoc) (nid : String) : Nat :=
  (d.edges.filter (fun e => e.target = nid)).length

/-- `MongoGraphStorage.node_degree` (lines 475-522): a missing document
returns 0; otherwise outbound is the length of the edge array and
inbound is computed by the aggregation pipeline: `$match` the documents
having some edge to `nid`, per document `$size` of the `$filter` of its
edges by target, `$group`-summing the sizes (an empty aggregation result
yields inbound 0). -/
def node_degree (g : Graph) (nid : String) : Nat :=
  match findDoc g nid with
  | none => 0
  | some d =>
    let matched := g.filter (fun x => x.edges.any (fun e => e.target = nid))
    let inbound :=
      if matched.isEmpty then 0
      else (matched.map (fun x => inboundCountOf x nid)).sum
    d.edges.length + inbound

/-- A node of the returned KnowledgeGraph. -/
structure KGNode where
  id : String
  labels : List String
  props : Fields
deriving DecidableEq

/-- An edge of the returned KnowledgeGraph; `eid` is the dedup key the
source builds with an f-string. -/
structure KGEdge where
  eid : String
  type : String
  source : String
  target : String
  props : Fields
deriving DecidableEq

/-- The KnowledgeGraph result object. -/
structure KG where
  nodes : List KGNode
  edges : List KGEdge
deriving DecidableEq

/-- The edge dedup key of `get_knowledge_graph`: the f-string
interpolation of source and target (the relation does not appear). -/
def edgeKey (src tgt : String) : String := src ++ "-" ++ tgt

/-- `edge.get("relation", "")` coerced to the string slot of the result
edge type. -/
def relOf (e : GEdge) : String :=
  match getField e.data "relation" with
  | some (Val.vstr s) => s
  | _ => ""

/-- Process one edge of a node inside `get_knowledge_graph`: skip it
when its key was seen, otherwise append the result edge and record the
key. -/
def addEdgeStep (nid : String) (acc : KG × List String) (e : GEdge) : KG × List String :=
  let k := edgeKey nid e.target
  if k ∈ acc.2 then acc
  else
    ({ acc.1 with
        edges := acc.1.edges ++ [⟨k, relOf e, nid, e.target, removeField e.data "relation"⟩] },
     acc.2 ++ [k])

/-- Process the edge list of one node against the seen-edges set. -/
def addEdgesOf (nid : String) (es : List GEdge) (acc : KG × List String) : KG × List String :=
  es.foldl (addEdgeStep nid) acc

/-- Process one node document: when its id is unseen, append the result
node and then its edges (the shape of both the wildcard loop body and
the connected-nodes loop body; the accumulator is the result graph, the
seen node ids and the seen edge keys). -/
def starStep (acc : KG × List String × List String) (d : NodeDoc) :
    KG × List String × List String :=
  if d.id ∈ acc.2.1 then acc
  else
    let kg1 : KG := { acc.1 with nodes := acc.1.nodes ++ [⟨d.id, [d.id], d.attrs⟩] }
    let r := addEdgesOf d.id d.edges (kg1, acc.2.2)
    (r.1, acc.2.1 ++ [d.id], r.2)

/-- The wildcard branch of `get_knowledge_graph` (lines 723-758): fold
the whole collection through the node processor. -/
def starFold (g : Graph) : KG :=
  (g.foldl starStep (⟨[], []⟩, [], [])).1

/-- Targets of the edge array of one document. -/
def targetsOfDoc (d : NodeDoc) : List String := d.edges.map GEdge.target

/-- Modelled from the spec: the `$graphLookup` bounded-depth
graph-expansion operator is an external database collaborator (spec §6);
per §4.5 it collects the ids reached by following `edges.target` links,
starting from the immediate edge targets of the start document (depth
0), for `maxDepth + 1` levels. -/
def reachIds (g : Graph) : Nat → List String → List String
  | 0, frontier => frontier
  | n + 1, frontier =>
      frontier ++ reachIds g n ((frontier.filterMap (findDoc g)).flatMap targetsOfDoc)

/-- The `connected_nodes` array of the traversal pipeline: the documents
of the collection whose id is reached within the depth bound. -/
def connectedDocs (g : Graph) (start : NodeDoc) (maxDepth : Nat) : List NodeDoc :=
  g.filter (fun d => d.id ∈ reachIds g maxDepth (targetsOfDoc start))

/-- The bounded-depth branch of `get_knowledge_graph` (lines 767-865)
applied to the matched start document and its connected nodes: add the
start node if unseen, then unconditionally process the start node edges,
then process every connected node. -/
def boundedAccum (start : NodeDoc) (connected : List NodeDoc) : KG :=
  let kg0 : KG := ⟨[], []⟩
  let p1 : KG × List String :=
    if start.id ∈ ([] : List String) then (kg0, [])
    else ({ kg0 with nodes := kg0.nodes ++ [⟨start.id, [start.id], start.attrs⟩] },
          [start.id])
  let p2 := addEdgesOf start.id start.edges (p1.1, [])
  (connected.foldl starStep (p2.1, p1.2, p2.2)).1

/-- `MongoGraphStorage.get_knowledge_graph` (lines 704-874): the
wildcard label materializes the whole collection; otherwise a missing
start label returns the empty result, and an existing one is expanded to
the bounded depth. -/
def get_knowledge_graph (g : Graph) (label : String) (maxDepth : Nat) : KG :=
  if label = "*" then starFold g
  else
    match findDoc g label with
    | none => ⟨[], []⟩
    | some start => boundedAccum start (connectedDocs g start maxDepth)

/-- Invariant of the dedup accumulators of `get_knowledge_graph`: the
result node ids are exactly the seen-node list, the result edge keys are
exactly the seen-edge list, both without duplicates, and every result
edge carries the dedup key of its endpoints and stems from an edge of
some document of the collection. -/
def kgInv (g : Graph) (kg : KG) (seenN seenE : List String) : Prop :=
  kg.nodes.map KGNode.id = seenN ∧
  kg.edges.map KGEdge.eid = seenE ∧
  seenN.Nodup ∧
  seenE.Nodup ∧
  ∀ e ∈ kg.edges, e.eid = edgeKey e.source e.target ∧
    ∃ d ∈ g, d.id = e.source ∧ ∃ ed ∈ d.edges, ed.target = e.target

/-- The intended edge-list invariant of the data model: each node
document has at most one edge per distinct target, i.e. its targets are
pairwise distinct. -/
@[reducible] def atMostOnePerTarget (g : Graph) : Prop :=
  ∀ d ∈ g, (d.edges.map GEdge.target).Nodup

/-
MongoKVStorage, response-cache branch of upsert (lines 110-126).
-/

/-- A key-value collection: documents keyed by id, in insertion order. -/
abbrev KVStore := List (String × Fields)

/-- `find_one({_id: id})` on the KV collection. -/
def kvFind : KVStore → String → Option Fields
  | [], _ => none
  | p :: ps, id => if p.1 = id then some p.2 else kvFind ps id

/-- `update_one({_id: id}, {$setOnInsert: v}, upsert=True)`: when the
document exists nothing changes, otherwise it is inserted. -/
def setOnInsert (st : KVStore) (id : String) (v : Fields) : KVStore :=
  if (kvFind st id).isSome then st else st ++ [(id, v)]

/-- The response-cache branch of `MongoKVStorage.upsert`: for each mode
and inner key, write the value (with its `_id` field set to the
composite id) under the composite id `mode + "_" + k`, insert-only.  The
concurrent writes are sequentialized in issue order. -/
def cacheUpsert (st : KVStore) (data : List (String × List (String × Fields))) : KVStore :=
  data.foldl
    (fun acc mp =>
      mp.2.foldl
        (fun acc2 kv =>
          let key := mp.1 ++ "_" ++ kv.1
          setOnInsert acc2 key (setField kv.2 "_id" (Val.vstr key)))
        acc)
    st

/-
MongoVectorDBStorage.upsert (lines 1011-1048) and query (lines 1050-1091).
-/

/-- Fuelled batching: `contents[i : i + n]` slices for `i` stepping by
`n` (the fuel is the list length, enough whenever `n ≥ 1`). -/
def batchesAux (fuel n : Nat) (l : List String) : List (List String) :=
  match fuel, l with
  | 0, _ => []
  | _, [] => []
  | f + 1, l => l.take n :: batchesAux f n (l.drop n)

/-- The batch split of the upsert contents list. -/
def batches (n : Nat) (l : List String) : List (List String) := batchesAux l.length n l

/-- `[v["content"] for v in data.values()]`: the content strings of the
input records, in input order; a record without a string content makes
the source raise, modelled as `none`. -/
def contentsOf : List (String × Fields) → Option (List String)
  | [] => some []
  | kv :: rest =>
    match getField kv.2 "content", contentsOf rest with
    | some (Val.vstr c), some cs => some (c :: cs)
    | _, _ => none

/-- `MongoVectorDBStorage.upsert`: build per-record documents holding
the id, the timestamp and the declared metadata fields; split the
contents into batches, embed each batch (the external embedding function
maps each text of a batch to its vector, spec §6), concatenate the
batch results in order, and attach the i-th vector to the i-th record.
The returned list is the list of documents written (each is then written
by an independent full-merge `update_one`). -/
def vupsert (metaFields : List String) (maxBatch : Nat) (embed : String → List ℚ)
    (now : ℚ) (data : List (String × Fields)) : Option (List Fields) :=
  match contentsOf data with
  | none => none
  | some contents =>
    let listData := data.map (fun kv =>
      setFields [("_id", Val.vstr kv.1), ("created_at", Val.vnum now)]
        (kv.2.filter (fun p => p.1 ∈ metaFields)))
    let embeddings := ((batches maxBatch contents).map (fun b => b.map embed)).flatten
    some (List.zipWith (fun d e => setField d "vector" (Val.vvec e)) listData embeddings)

/-- The `$match {score: {$gte: t}}` stage applied after `$addFields`
wrote the similarity score. -/
def vscoreGE (t : ℚ) (d : Fields) : Bool :=
  match getField d "score" with
  | some (Val.vnum q) => t ≤ q
  | _ => false

/-- The result formatting of `query`: `{**doc, "id": doc["_id"],
"distance": doc.get("score", None), "created_at": doc.get("created_at")}`
(a document reaching this point always carries `_id` in the database;
the default of the id lookup is never exercised under that hypothesis). -/
def formatResult (d : Fields) : Fields :=
  setFields d
    [("id", (getField d "_id").getD (Val.vstr "")),
     ("distance", (getField d "score").getD Val.vnull),
     ("created_at", (getField d "created_at").getD Val.vnull)]

/-- `MongoVectorDBStorage.query`: the `$vectorSearch` operator is the
external database collaborator returning a candidate list scored by
`scoreOf` (spec §6); the pipeline then `$addFields` the score, `$match`es
it against the threshold, `$project`s the raw vector away, and formats
each result. -/
def vectorQuery (cands : List Fields) (scoreOf : Fields → ℚ) (t : ℚ) : List Fields :=
  let scored := cands.map (fun d => setField d "score" (Val.vnum (scoreOf d)))
  let matched := scored.filter (vscoreGE t)
  let projected := matched.map (fun d => removeField d "vector")
  projected.map formatResult

/-- Concrete graph of the degree example of the spec: edges A→B, A→C,
D→B. -/
def degreeExample : Graph :=
  [⟨"A", [], [⟨"B", []⟩, ⟨"C", []⟩]⟩,
   ⟨"B", [], []⟩,
   ⟨"C", [], []⟩,
   ⟨"D", [], [⟨"B", []⟩]⟩]

/-- Concrete vector-upsert input used as a witness. -/
def vupsertExample : List (String × Fields) :=
  [("d1", [("content", Val.vstr "hello"), ("src_id", Val.vstr "s1")]),
   ("d2", [("content", Val.vstr "xy")])]

/-- Concrete stored vector document used as a witness. -/
def vqueryDoc : Fields :=
  [("_id", Val.vstr "v1"), ("vector", Val.vvec [1, 0]), ("created_at", Val.vnum 5)]

/-- Concrete graph holding two parallel edges A→B with distinct
relations. -/
def parallelExample : Graph :=
  [⟨"A", [], [⟨"B", [("relation", Val.vstr "r1")]⟩, ⟨"B", [("relation", Val.vstr "r2")]⟩]⟩,
   ⟨"B", [], []⟩]

/-
Basic lemmas about field access.
-/

theorem getField_append (l1 l2 : Fields) (k : String) :
    getField (l1 ++ l2) k = (getField l1 k).or (getField l2 k) := by
  induction l1 with
  | nil => simp [getField]
  | cons p ps ih =>
    by_cases hp : p.1 = k
    · simp [getField, hp]
    · simp [getField, hp, ih]

theorem getField_removeField_self (fs : Fields) (k : String) :
    getField (removeField fs k) k = none := by
  induction fs with
  | nil => rfl
  | cons p ps ih =>
    by_cases hp : p.1 = k
    · simp [removeField, hp, ih]
    · simp [removeField, getField, hp, ih]

theorem getField_removeField_ne (fs : Fields) (k k2 : String) (h : ¬ k2 = k) :
    getField (removeField fs k) k2 = getField fs k2 := by
  have hk : ¬ k = k2 := fun hc => h hc.symm
  induction fs with
  | nil => rfl
  | cons p ps ih =>
    by_cases hp : p.1 = k
    · have hp2 : ¬ p.1 = k2 := fun hc => h (by rw [← hc, hp])
      simp [removeField, getField, hp, hp2, hk, ih]
    · by_cases hq : p.1 = k2
      · simp [removeField, getField, hp, hq, h, ih]
      · simp [removeField, getField, hp, hq, h, ih]

theorem getField_setField_self (fs : Fields) (k : String) (v : Val) :
    getField (setField fs k v) k = some v := by
  rw [setField, getField_append, getField_removeField_self]
  simp [getField]

theorem getField_setField_ne (fs : Fields) (k k2 : String) (v : Val) (h : ¬ k2 = k) :
    getField (setField fs k v) k2 = getField fs k2 := by
  rw [setField, getField_append, getField_removeField_ne fs k k2 h]
  have hk : ¬ k = k2 := fun hc => h hc.symm
  cases hf : getField fs k2 <;> simp [getField, hk]

/-
C1: ClientManager pairing invariant.
-/

theorem cmLive_inv (e : CMEvent) (s : CMState) (h : s.live = s.db.toList) :
    (cmStep s e).live = (cmStep s e).db.toList := by
  cases e with
  | acq =>
    by_cases hdb : s.db = none
    · simp [cmStep, get_client, hdb, h]
    · simp [cmStep, get_client, hdb, h]
  | rel hd =>
    by_cases hdb : s.db = some hd
    · by_cases hrc : s.refCount - 1 = 0
      · simp [cmStep, release_client, hdb, hrc, h]
      · simp [cmStep, release_client, hdb, hrc, h]
    · simp [cmStep, release_client, hdb, h]

theorem cmRun_live_inv (evs : List CMEvent) :
    (cmRun evs).live = (cmRun evs).db.toList := by
  suffices hgen : ∀ s : CMState, s.live = s.db.toList →
      (evs.foldl cmStep s).live = (evs.foldl cmStep s).db.toList by
    exact hgen cmInit rfl
  induction evs with
  | nil => intro s hs; exact hs
  | cons e rest ih =>
    intro s hs
    exact ih (cmStep s e) (cmLive_inv e s hs)

/-- C1: `ClientManager` pairing invariant: `get_client` is idempotent —
with a live shared handle it returns that handle and only increments the
reference count; with no live handle it opens a fresh connection,
resetting the reference count to zero before incrementing it.
`release_client` of the shared handle decrements the count and clears
the shared connection exactly when the count reaches zero.  Under every
sequence of calls from the initial state (in particular every sequence
of paired acquire and release calls) at most one underlying connection
is live process-wide. -/
theorem clientManager_pairing_invariant :
    (∀ (s : CMState) (h : Nat), s.db = some h →
      get_client s = ({ s with refCount := s.refCount + 1 }, h)) ∧
    (∀ s : CMState, s.db = none →
      (get_client s).1.db = some s.nextId ∧
      (get_client s).1.refCount = 0 + 1 ∧
      (get_client s).2 = s.nextId) ∧
    (∀ (s : CMState) (h : Nat), s.db = some h →
      (release_client s h).refCount = s.refCount - 1 ∧
      ((release_client s h).db = none ↔ s.refCount - 1 = 0)) ∧
    (∀ evs : List CMEvent, (cmRun evs).live.length ≤ 1) := by
  refine ⟨?_, ?_, ?_, ?_⟩
  · intro s h hdb
    simp [get_client, hdb]
  · intro s hdb
    simp [get_client, hdb]
  · intro s h hdb
    by_cases hrc : s.refCount - 1 = 0
    · simp [release_client, hdb, hrc]
    · simp [release_client, hdb, hrc]
  · intro evs
    rw [cmRun_live_inv]
    cases (cmRun evs).db <;> simp

/-- Witness for C1 at concrete inputs. -/
theorem clientManager_pairing_invariant_witness :
    get_client ⟨some 7, 2, 8, [7]⟩ = (⟨some 7, 3, 8, [7]⟩, 7) ∧
    (release_client ⟨some 7, 1, 8, [7]⟩ 7).db = none ∧
    (cmRun [CMEvent.acq, CMEvent.acq, CMEvent.rel 0, CMEvent.acq]).live.length ≤ 1 := by
  refine ⟨clientManager_pairing_invariant.1 ⟨some 7, 2, 8, [7]⟩ 7 rfl, ?_,
    clientManager_pairing_invariant.2.2.2 [CMEvent.acq, CMEvent.acq, CMEvent.rel 0, CMEvent.acq]⟩
  exact ((clientManager_pairing_invariant.2.2.1 ⟨some 7, 1, 8, [7]⟩ 7 rfl).2).mpr (by decide)

/-
C10: node_degree of a missing node.
-/

/-- C10: for a node id with no document in the graph store,
`node_degree` returns 0 — the missing-document case short-circuits
before the inbound scan, so dangling references to the id are not
counted. -/
theorem node_degree_missing (g : Graph) (nid : String)
    (h : findDoc g nid = none) : node_degree g nid = 0 := by
  simp [node_degree, h]

/-- Witness for C10: a graph whose only document holds a dangling edge
to a missing id; the degree of that id is 0 despite the inbound
reference. -/
theorem node_degree_missing_witness :
    node_degree [⟨"A", [], [⟨"ghost", []⟩]⟩] "ghost" = 0 :=
  node_degree_missing [⟨"A", [], [⟨"ghost", []⟩]⟩] "ghost" (by decide)

/-
C5: subgraph extraction of a missing start label.
-/

/-- C5: for every start label other than the wildcard that has no
document in the store, `get_knowledge_graph` returns the empty graph
(no nodes, no edges) rather than erroring. -/
theorem get_knowledge_graph_missing_label (g : Graph) (label : String) (maxDepth : Nat)
    (hstar : ¬ label = "*") (h : findDoc g label = none) :
    get_knowledge_graph g label maxDepth = ⟨[], []⟩ := by
  simp [get_knowledge_graph, hstar, h]

/-- Witness for C5 at a concrete graph and missing label. -/
theorem get_knowledge_graph_missing_label_witness :
    get_knowledge_graph degreeExample "Z" 5 = ⟨[], []⟩ :=
  get_knowledge_graph_missing_label degreeExample "Z" 5 (by decide) (by decide)

/-
C3: node_degree of an existing node.
-/

theorem sum_map_filter_eq (l : List NodeDoc) (q : NodeDoc → Bool) (f : NodeDoc → Nat)
    (h : ∀ x, q x = false → f x = 0) :
    ((l.filter q).map f).sum = (l.map f).sum := by
  induction l with
  | nil => rfl
  | cons x xs ih =>
    by_cases hq : q x
    · simp [List.filter_cons, hq, ih]
    · have hx : f x = 0 := h x (by simpa using hq)
      simp [List.filter_cons, hq, ih, hx]

theorem inboundCountOf_eq_zero (x : NodeDoc) (nid : String)
    (h : x.edges.any (fun e => e.target = nid) = false) :
    inboundCountOf x nid = 0 := by
  simp only [List.any_eq_false, decide_eq_true_eq] at h
  simp only [inboundCountOf, List.length_eq_zero, List.filter_eq_nil_iff,
    decide_eq_true_eq]
  exact h

/-- C3: for every node id present in the graph store, `node_degree`
returns the length of the own edge list of the node (outbound) plus the
count, over every document of the collection, of edges whose target
equals the id (inbound). -/
theorem node_degree_existing (g : Graph) (nid : String) (d : NodeDoc)
    (h : findDoc g nid = some d) :
    node_degree g nid =
      d.edges.length +
        (g.map (fun x => (x.edges.filter (fun e => e.target = nid)).length)).sum := by
  rw [node_degree, h]
  have hzero : ∀ x : NodeDoc, (x.edges.any (fun e => e.target = nid)) = false →
      inboundCountOf x nid = 0 := fun x => inboundCountOf_eq_zero x nid
  have hsum :
      ((g.filter (fun x => x.edges.any (fun e => e.target = nid))).map
          (fun x => inboundCountOf x nid)).sum =
        (g.map (fun x => inboundCountOf x nid)).sum :=
    sum_map_filter_eq g _ _ hzero
  by_cases hempty : (g.filter (fun x => x.edges.any (fun e => e.target = nid))).isEmpty
  · have hnil : g.filter (fun x => x.edges.any (fun e => e.target = nid)) = [] := by
      simpa [List.isEmpty_iff] using hempty
    rw [hnil] at hsum
    simp only [hnil, List.isEmpty_nil, if_true]
    rw [show (0 : Nat) = (([] : List NodeDoc).map (fun x => inboundCountOf x nid)).sum by simp,
      hsum]
    rfl
  · simp only [hempty, Bool.false_eq_true, if_false]
    rw [hsum]
    rfl

/-- Witness for C3: the degree example of the spec (edges A→B, A→C,
D→B) gives degree 2 for B and 2 for A. -/
theorem node_degree_existing_witness :
    node_degree degreeExample "B" = 2 ∧ node_degree degreeExample "A" = 2 := by
  constructor
  · exact (node_degree_existing degreeExample "B" ⟨"B", [], []⟩ (by decide)).trans (by decide)
  · exact (node_degree_existing degreeExample "A" ⟨"A", [], [⟨"B", []⟩, ⟨"C", []⟩]⟩
      (by decide)).trans (by decide)

/-
C8: response-cache first-writer-wins upsert.
-/

theorem kvFind_append (st l : KVStore) (id : String) :
    kvFind (st ++ l) id = (kvFind st id).or (kvFind l id) := by
  induction st with
  | nil => simp [kvFind]
  | cons p ps ih =>
    by_cases hp : p.1 = id
    · simp [kvFind, hp]
    · simp [kvFind, hp, ih]

theorem setOnInsert_present (st : KVStore) (id : String) (v w : Fields)
    (h : kvFind st id = some w) : setOnInsert st id v = st := by
  simp [setOnInsert, h]

theorem setOnInsert_absent (st : KVStore) (id : String) (v : Fields)
    (h : kvFind st id = none) : kvFind (setOnInsert st id v) id = some v := by
  simp [setOnInsert, h, kvFind_append, kvFind]

/-- C8: for the response-cache namespace, `upsert` writes under the
composite id `mode + "_" + key` and only sets fields when the document
did not previously exist: an upsert of an existing cache id leaves the
stored value unchanged, so of two sequential upserts of the same fresh
id the first writer wins. -/
theorem cache_upsert_first_write_wins :
    (∀ (st : KVStore) (mode k : String) (v : Fields),
      kvFind st (mode ++ "_" ++ k) = none →
      kvFind (cacheUpsert st [(mode, [(k, v)])]) (mode ++ "_" ++ k) =
        some (setField v "_id" (Val.vstr (mode ++ "_" ++ k)))) ∧
    (∀ (st : KVStore) (mode k : String) (v w : Fields),
      kvFind st (mode ++ "_" ++ k) = some w →
      kvFind (cacheUpsert st [(mode, [(k, v)])]) (mode ++ "_" ++ k) = some w) ∧
    (∀ (st : KVStore) (mode k : String) (v1 v2 : Fields),
      kvFind st (mode ++ "_" ++ k) = none →
      kvFind (cacheUpsert (cacheUpsert st [(mode, [(k, v1)])]) [(mode, [(k, v2)])])
          (mode ++ "_" ++ k) =
        some (setField v1 "_id" (Val.vstr (mode ++ "_" ++ k)))) := by
  have habs : ∀ (st : KVStore) (mode k : String) (v : Fields),
      kvFind st (mode ++ "_" ++ k) = none →
      kvFind (cacheUpsert st [(mode, [(k, v)])]) (mode ++ "_" ++ k) =
        some (setField v "_id" (Val.vstr (mode ++ "_" ++ k))) := by
    intro st mode k v h
    simp only [cacheUpsert, List.foldl_cons, List.foldl_nil]
    exact setOnInsert_absent st _ _ h
  have hpres : ∀ (st : KVStore) (mode k : String) (v w : Fields),
      kvFind st (mode ++ "_" ++ k) = some w →
      kvFind (cacheUpsert st [(mode, [(k, v)])]) (mode ++ "_" ++ k) = some w := by
    intro st mode k v w h
    simp only [cacheUpsert, List.foldl_cons, List.foldl_nil]
    rw [setOnInsert_present st _ _ w h]
    exact h
  refine ⟨habs, hpres, ?_⟩
  intro st mode k v1 v2 h
  exact hpres _ mode k v2 _ (habs st mode k v1 h)

/-- Witness for C8: a second upsert of the same cache id with a
different value leaves the first value in place. -/
theorem cache_upsert_first_write_wins_witness :
    kvFind
        (cacheUpsert (cacheUpsert [] [("global", [("q1", [("return", Val.vstr "a")])])])
          [("global", [("q1", [("return", Val.vstr "b")])])])
        ("global" ++ "_" ++ "q1") =
      some (setField [("return", Val.vstr "a")] "_id" (Val.vstr ("global" ++ "_" ++ "q1"))) :=
  cache_upsert_first_write_wins.2.2 [] "global" "q1"
    [("return", Val.vstr "a")] [("return", Val.vstr "b")] rfl

/-
Lemmas about setFields and updateFirst, feeding C9 and C2.
-/

theorem getField_eq_none_iff (fs : Fields) (k : String) :
    getField fs k = none ↔ ∀ p ∈ fs, ¬ p.1 = k := by
  induction fs with
  | nil => simp [getField]
  | cons p ps ih => by_cases hp : p.1 = k <;> simp [getField, hp, ih]

theorem getField_setFields_none :
    ∀ (kvs fs : Fields) (k : String), getField kvs k = none →
      getField (setFields fs kvs) k = getField fs k := by
  intro kvs
  induction kvs with
  | nil => intro fs k _; rfl
  | cons p ps ih =>
    intro fs k h
    have hp : ¬ p.1 = k := (getField_eq_none_iff (p :: ps) k).mp h p (by simp)
    have hps : getField ps k = none := by
      rw [getField, if_neg hp] at h; exact h
    simp only [setFields, List.foldl_cons]
    have hstep := ih (setField fs p.1 p.2) k hps
    simp only [setFields] at hstep
    rw [hstep, getField_setField_ne fs p.1 k p.2 (fun hc => hp hc.symm)]

theorem getField_setFields_some :
    ∀ (kvs fs : Fields) (k : String) (v : Val), (kvs.map Prod.fst).Nodup →
      getField kvs k = some v → getField (setFields fs kvs) k = some v := by
  intro kvs
  induction kvs with
  | nil => intro fs k v _ h; simp [getField] at h
  | cons p ps ih =>
    intro fs k v hnd h
    simp only [List.map_cons, List.nodup_cons] at hnd
    by_cases hp : p.1 = k
    · have hv : p.2 = v := by
        rw [getField, if_pos hp] at h; exact Option.some.inj h
      have hnone : getField ps k = none := by
        rw [getField_eq_none_iff]
        intro q hq hqk
        exact hnd.1 (by rw [hp, ← hqk]; exact List.mem_map_of_mem Prod.fst hq)
      simp only [setFields, List.foldl_cons]
      have hstep := getField_setFields_none ps (setField fs p.1 p.2) k hnone
      simp only [setFields] at hstep
      rw [hstep, hp, getField_setField_self, hv]
    · have hps : getField ps k = some v := by
        rw [getField, if_neg hp] at h; exact h
      simp only [setFields, List.foldl_cons]
      have hstep := ih (setField fs p.1 p.2) k v hnd.2 hps
      simp only [setFields] at hstep
      exact hstep

theorem findDoc_append (g1 g2 : Graph) (nid : String) :
    findDoc (g1 ++ g2) nid = (findDoc g1 nid).or (findDoc g2 nid) := by
  induction g1 with
  | nil => simp [findDoc]
  | cons d ds ih =>
    by_cases hd : d.id = nid
    · simp [findDoc, hd]
    · simp [findDoc, hd, ih]

theorem findDoc_none_iff (g : Graph) (nid : String) :
    findDoc g nid = none ↔ ¬ nid ∈ g.map NodeDoc.id := by
  induction g with
  | nil => simp [findDoc]
  | cons d ds ih =>
    by_cases hd : d.id = nid
    · simp [findDoc, hd, ih]
    · simp only [findDoc, hd, if_false, ih, List.map_cons, List.mem_cons]
      constructor
      · intro hn hc
        rcases hc with hc | hc
        · exact hd hc.symm
        · exact hn hc
      · intro hn hc
        exact hn (Or.inr hc)

theorem findDoc_updateFirst_self (g : Graph) (nid : String) (f : NodeDoc → NodeDoc)
    (hf : ∀ d, (f d).id = d.id) :
    findDoc (updateFirst (fun d => d.id = nid) f g) nid = (findDoc g nid).map f := by
  induction g with
  | nil => rfl
  | cons d ds ih =>
    by_cases hd : d.id = nid
    · simp [updateFirst, findDoc, hd, hf d]
    · simp [updateFirst, findDoc, hd, ih]

theorem findDoc_updateFirst_ne (g : Graph) (nid m : String) (f : NodeDoc → NodeDoc)
    (hf : ∀ d, (f d).id = d.id) (hm : ¬ m = nid) :
    findDoc (updateFirst (fun d => d.id = nid) f g) m = findDoc g m := by
  induction g with
  | nil => rfl
  | cons d ds ih =>
    by_cases hd : d.id = nid
    · have hdm : ¬ d.id = m := fun hc => hm (by rw [← hc]; exact hd)
      have hfm : ¬ (f d).id = m := by rw [hf d]; exact hdm
      have h1 : updateFirst (fun d => d.id = nid) f (d :: ds) = f d :: ds := by
        simp [updateFirst, hd]
      rw [h1, findDoc, if_neg hfm, findDoc, if_neg hdm]
    · have h1 : updateFirst (fun d => d.id = nid) f (d :: ds) =
          d :: updateFirst (fun d => d.id = nid) f ds := by
        simp [updateFirst, hd]
      by_cases hdm : d.id = m
      · rw [h1, findDoc, if_pos hdm, findDoc, if_pos hdm]
      · rw [h1, findDoc, if_neg hdm, findDoc, if_neg hdm, ih]

theorem updateFirst_map_id (g : Graph) (nid : String) (f : NodeDoc → NodeDoc)
    (hf : ∀ d, (f d).id = d.id) :
    (updateFirst (fun d => d.id = nid) f g).map NodeDoc.id = g.map NodeDoc.id := by
  induction g with
  | nil => rfl
  | cons d ds ih =>
    by_cases hd : d.id = nid
    · simp [updateFirst, hd, hf d]
    · simp [updateFirst, hd, ih]

theorem findDoc_upsert_node_self (g : Graph) (nid : String) (nodeData : Fields) :
    findDoc (upsert_node g nid nodeData) nid =
      some (match findDoc g nid with
        | some d => { d with attrs := setFields d.attrs nodeData }
        | none => ⟨nid, setFields [] nodeData, []⟩) := by
  by_cases hs : (findDoc g nid).isSome
  · obtain ⟨d, hd⟩ := Option.isSome_iff_exists.mp hs
    rw [upsert_node, if_pos hs,
      findDoc_updateFirst_self g nid
        (fun d => { d with attrs := setFields d.attrs nodeData }) (fun d => rfl), hd]
    rfl
  · have hd : findDoc g nid = none := Option.not_isSome_iff_eq_none.mp hs
    rw [upsert_node, if_neg hs, findDoc_append, hd]
    simp [findDoc]

theorem findDoc_upsert_node_ne (g : Graph) (nid m : String) (nodeData : Fields)
    (hm : ¬ m = nid) :
    findDoc (upsert_node g nid nodeData) m = findDoc g m := by
  by_cases hs : (findDoc g nid).isSome
  · rw [upsert_node, if_pos hs]
    exact findDoc_updateFirst_ne g nid m
      (fun d => { d with attrs := setFields d.attrs nodeData }) (fun d => rfl) hm
  · rw [upsert_node, if_neg hs, findDoc_append]
    have hone : findDoc [(⟨nid, setFields [] nodeData, []⟩ : NodeDoc)] m = none := by
      rw [findDoc, if_neg (fun hc : nid = m => hm hc.symm)]
      rfl
    rw [hone]
    cases hf : findDoc g m <;> simp

theorem upsert_node_map_id (g : Graph) (nid : String) (a : Fields) :
    (upsert_node g nid a).map NodeDoc.id =
      if (findDoc g nid).isSome then g.map NodeDoc.id else g.map NodeDoc.id ++ [nid] := by
  by_cases hs : (findDoc g nid).isSome
  · rw [upsert_node, if_pos hs, if_pos hs,
      updateFirst_map_id g nid
        (fun d => { d with attrs := setFields d.attrs a }) (fun d => rfl)]
  · rw [upsert_node, if_neg hs, if_neg hs]
    simp

theorem upsert_node_nodup (g : Graph) (nid : String) (a : Fields)
    (h : (g.map NodeDoc.id).Nodup) : ((upsert_node g nid a).map NodeDoc.id).Nodup := by
  rw [upsert_node_map_id]
  by_cases hs : (findDoc g nid).isSome
  · rw [if_pos hs]; exact h
  · rw [if_neg hs]
    have hnm : ¬ nid ∈ g.map NodeDoc.id :=
      (findDoc_none_iff g nid).mp (Option.not_isSome_iff_eq_none.mp hs)
    simp [List.nodup_append, h, hnm]

theorem filter_id_count_one :
    ∀ (g : Graph) (nid : String), (g.map NodeDoc.id).Nodup → (findDoc g nid).isSome →
      (g.filter (fun d => d.id = nid)).length = 1 := by
  intro g nid
  induction g with
  | nil => intro _ h; simp [findDoc] at h
  | cons d ds ih =>
    intro hnd hs
    simp only [List.map_cons, List.nodup_cons] at hnd
    by_cases hd : d.id = nid
    · have hnil : ds.filter (fun d => d.id = nid) = [] := by
        rw [List.filter_eq_nil_iff]
        intro a ha hak
        simp only [decide_eq_true_eq] at hak
        exact hnd.1 (by rw [hd, ← hak]; exact List.mem_map_of_mem NodeDoc.id ha)
      simp [List.filter_cons, hd, hnil]
    · have hs2 : (findDoc ds nid).isSome := by
        rw [findDoc, if_neg hd] at hs; exact hs
      simp [List.filter_cons, hd, ih hnd.2 hs2]

/-- C9: `upsert_node` merge-sets the given attributes into the document
of the id, initializes an empty edge list only on first creation, never
modifies an existing edge list, and leaves every other document
untouched; upserting the same attributes twice yields one document
carrying those attributes with an edge list identical to the one before
the upserts. -/
theorem upsert_node_idempotent_frame (g : Graph) (nid : String) (attrs : Fields) :
    (∀ m, ¬ m = nid → findDoc (upsert_node g nid attrs) m = findDoc g m) ∧
    edgesOf (upsert_node g nid attrs) nid = some ((edgesOf g nid).getD []) ∧
    (∃ d2, findDoc (upsert_node (upsert_node g nid attrs) nid attrs) nid = some d2 ∧
      d2.edges = (edgesOf g nid).getD [] ∧
      ((attrs.map Prod.fst).Nodup →
        ∀ k v, getField attrs k = some v → getField d2.attrs k = some v)) ∧
    ((g.map NodeDoc.id).Nodup →
      ((upsert_node (upsert_node g nid attrs) nid attrs).filter
          (fun d => d.id = nid)).length = 1) := by
  refine ⟨fun m hm => findDoc_upsert_node_ne g nid m attrs hm, ?_, ?_, ?_⟩
  · rw [edgesOf, findDoc_upsert_node_self]
    cases hf : findDoc g nid <;> simp [edgesOf, hf]
  · refine ⟨_, findDoc_upsert_node_self (upsert_node g nid attrs) nid attrs, ?_, ?_⟩
    · rw [findDoc_upsert_node_self]
      cases hf : findDoc g nid <;> simp [edgesOf, hf]
    · intro hnd k v hv
      rw [findDoc_upsert_node_self]
      cases hf : findDoc g nid <;>
        exact getField_setFields_some attrs _ k v hnd hv
  · intro hnd
    exact filter_id_count_one _ nid
      (upsert_node_nodup _ nid attrs (upsert_node_nodup g nid attrs hnd))
      (by rw [findDoc_upsert_node_self]; rfl)

/-- Witness for C9 at a concrete graph: a double upsert of the same
attributes on node A leaves its edge list unchanged and stores the
attribute. -/
theorem upsert_node_idempotent_frame_witness :
    edgesOf (upsert_node degreeExample "A" [("color", Val.vstr "red")]) "A" =
      some [⟨"B", []⟩, ⟨"C", []⟩] ∧
    ((upsert_node (upsert_node degreeExample "A" [("color", Val.vstr "red")]) "A"
        [("color", Val.vstr "red")]).filter (fun d => d.id = "A")).length = 1 := by
  constructor
  · exact ((upsert_node_idempotent_frame degreeExample "A"
      [("color", Val.vstr "red")]).2.1).trans (by decide)
  · exact (upsert_node_idempotent_frame degreeExample "A"
      [("color", Val.vstr "red")]).2.2.2 (by decide)

/-
C2: upsert_edge semantics and the one-edge-per-target invariant.
-/

theorem updateFirst_updateFirst (p : NodeDoc → Bool) (f1 f2 : NodeDoc → NodeDoc)
    (hp : ∀ d, p (f1 d) = p d) :
    ∀ g : Graph,
      updateFirst p f2 (updateFirst p f1 g) = updateFirst p (fun d => f2 (f1 d)) g := by
  intro g
  induction g with
  | nil => rfl
  | cons d ds ih =>
    by_cases hd : p d
    · simp [updateFirst, hd, hp d]
    · simp [updateFirst, hd, hp d, ih]

theorem mem_updateFirst (p : NodeDoc → Bool) (f : NodeDoc → NodeDoc) :
    ∀ (g : Graph) (x : NodeDoc), x ∈ updateFirst p f g → x ∈ g ∨ ∃ d ∈ g, x = f d := by
  intro g
  induction g with
  | nil => intro x hx; simp [updateFirst] at hx
  | cons d ds ih =>
    intro x hx
    by_cases hd : p d
    · simp only [updateFirst, hd, if_true] at hx
      rcases List.mem_cons.mp hx with h | h
      · exact Or.inr ⟨d, List.mem_cons_self d ds, h⟩
      · exact Or.inl (List.mem_cons_of_mem d h)
    · simp only [updateFirst, hd, if_false] at hx
      rcases List.mem_cons.mp hx with h | h
      · exact Or.inl (h ▸ List.mem_cons_self d ds)
      · rcases ih x h with h2 | ⟨d0, hd0, he⟩
        · exact Or.inl (List.mem_cons_of_mem d h2)
        · exact Or.inr ⟨d0, List.mem_cons_of_mem d hd0, he⟩

theorem mem_upsert_node (g : Graph) (nid : String) (a : Fields) (x : NodeDoc)
    (hx : x ∈ upsert_node g nid a) :
    x ∈ g ∨ (∃ d ∈ g, x = { d with attrs := setFields d.attrs a }) ∨
      x = ⟨nid, setFields [] a, []⟩ := by
  rw [upsert_node] at hx
  by_cases hs : (findDoc g nid).isSome
  · rw [if_pos hs] at hx
    rcases mem_updateFirst _ _ g x hx with h | ⟨d, hd, he⟩
    · exact Or.inl h
    · exact Or.inr (Or.inl ⟨d, hd, he⟩)
  · rw [if_neg hs] at hx
    rcases List.mem_append.mp hx with h | h
    · exact Or.inl h
    · simp at h
      exact Or.inr (Or.inr h)

theorem filter_target_of_filter_not (es : List GEdge) (tgt : String) :
    (es.filter (fun e => ¬ e.target = tgt)).filter (fun e => e.target = tgt) = [] := by
  rw [List.filter_eq_nil_iff]
  intro a ha h
  have h2 := (List.mem_filter.mp ha).2
  simp only [decide_eq_true_eq] at h h2
  simp [h] at h2

theorem targets_filter_push_nodup (es : List GEdge) (tgt : String) (data : Fields)
    (h : (es.map GEdge.target).Nodup) :
    ((es.filter (fun e => ¬ e.target = tgt) ++ [GEdge.mk tgt data]).map GEdge.target).Nodup := by
  rw [List.map_append]
  have hsub : List.Sublist
      ((es.filter (fun e => ¬ e.target = tgt)).map GEdge.target)
      (es.map GEdge.target) :=
    List.Sublist.map GEdge.target (List.filter_sublist es)
  have h1 : ((es.filter (fun e => ¬ e.target = tgt)).map GEdge.target).Nodup :=
    hsub.nodup h
  have h2 : ¬ tgt ∈ (es.filter (fun e => ¬ e.target = tgt)).map GEdge.target := by
    intro hc
    obtain ⟨e, he, het⟩ := List.mem_map.mp hc
    have h3 := (List.mem_filter.mp he).2
    simp only [decide_eq_true_eq] at h3
    exact h3 het
  refine List.Nodup.append h1 (by simp) ?_
  intro a ha hb
  simp only [List.map_cons, List.map_nil, List.mem_singleton] at hb
  exact h2 (hb ▸ ha)

/-- C2: in a sequential execution, `upsert_edge` ensures the source
exists (creating it with no attributes when missing), then removes any
existing edge to the target and appends the new edge; afterwards the
source edge list carries exactly one edge to the target, holding the
given attributes, every other document is untouched, and the
one-edge-per-distinct-target invariant of edge lists is preserved. -/
theorem upsert_edge_spec (g : Graph) (src tgt : String) (edgeData : Fields) :
    edgesOf (upsert_edge g src tgt edgeData) src =
      some (((edgesOf g src).getD []).filter (fun e => ¬ e.target = tgt) ++
        [⟨tgt, edgeData⟩]) ∧
    ((edgesOf (upsert_edge g src tgt edgeData) src).getD []).filter
        (fun e => e.target = tgt) = [⟨tgt, edgeData⟩] ∧
    (findDoc g src = none →
      findDoc (upsert_edge g src tgt edgeData) src = some ⟨src, [], [⟨tgt, edgeData⟩]⟩) ∧
    (∀ m, ¬ m = src → findDoc (upsert_edge g src tgt edgeData) m = findDoc g m) ∧
    (atMostOnePerTarget g → atMostOnePerTarget (upsert_edge g src tgt edgeData)) := by
  have hcomb : upsert_edge g src tgt edgeData =
      updateFirst (fun d => d.id = src) (replaceEdge tgt edgeData)
        (upsert_node g src []) := by
    rw [upsert_edge, pullEdge, pushEdge,
      updateFirst_updateFirst (fun d => d.id = src)
        (fun d => { d with edges := d.edges.filter (fun e => ¬ e.target = tgt) })
        (fun d => { d with edges := d.edges ++ [GEdge.mk tgt edgeData] })
        (fun d => rfl)]
    rfl
  obtain ⟨d1, hd1, hd1e, hd1abs⟩ : ∃ d1, findDoc (upsert_node g src []) src = some d1 ∧
      d1.edges = (edgesOf g src).getD [] ∧
      (findDoc g src = none → d1 = ⟨src, [], []⟩) := by
    rw [findDoc_upsert_node_self g src []]
    cases hf : findDoc g src
    · exact ⟨_, rfl, by simp [edgesOf, hf, setFields], fun _ => by simp [setFields]⟩
    · exact ⟨_, rfl, by simp [edgesOf, hf], fun hc => Option.noConfusion hc⟩
  have hfind : findDoc (upsert_edge g src tgt edgeData) src =
      some (replaceEdge tgt edgeData d1) := by
    rw [hcomb,
      findDoc_updateFirst_self (upsert_node g src []) src (replaceEdge tgt edgeData)
        (fun d => rfl), hd1]
    rfl
  have hA : edgesOf (upsert_edge g src tgt edgeData) src =
      some (((edgesOf g src).getD []).filter (fun e => ¬ e.target = tgt) ++
        [⟨tgt, edgeData⟩]) := by
    rw [edgesOf, hfind]
    simp [replaceEdge, hd1e]
  refine ⟨hA, ?_, ?_, ?_, ?_⟩
  · rw [hA]
    simp only [Option.getD_some, List.filter_append, filter_target_of_filter_not,
      List.nil_append]
    simp [List.filter_cons]
  · intro habs
    rw [hfind, hd1abs habs]
    simp [replaceEdge]
  · intro m hm
    rw [hcomb,
      findDoc_updateFirst_ne (upsert_node g src []) src m (replaceEdge tgt edgeData)
        (fun d => rfl) hm,
      findDoc_upsert_node_ne g src m [] hm]
  · intro hInv x hx
    rw [hcomb] at hx
    have hg1 : ∀ y : NodeDoc, y ∈ upsert_node g src [] →
        (y.edges.map GEdge.target).Nodup := by
      intro y hy
      rcases mem_upsert_node g src [] y hy with hyg | ⟨d0, hd0, he⟩ | he
      · exact hInv y hyg
      · rw [he]
        exact hInv d0 hd0
      · rw [he]
        simp
    rcases mem_updateFirst _ _ _ x hx with hxg1 | ⟨d0, hd0, he⟩
    · exact hg1 x hxg1
    · rw [he]
      exact targets_filter_push_nodup d0.edges tgt edgeData (hg1 d0 hd0)

/-- Witness for C2 at a concrete graph: upserting edge A→B lands exactly
one B-edge on A and keeps the invariant. -/
theorem upsert_edge_spec_witness :
    ((edgesOf (upsert_edge degreeExample "A" "B" [("relation", Val.vstr "knows")])
          "A").getD []).filter (fun e => e.target = "B") =
      [⟨"B", [("relation", Val.vstr "knows")]⟩] ∧
    atMostOnePerTarget (upsert_edge degreeExample "A" "B"
        [("relation", Val.vstr "knows")]) :=
  ⟨(upsert_edge_spec degreeExample "A" "B" [("relation", Val.vstr "knows")]).2.1,
   (upsert_edge_spec degreeExample "A" "B" [("relation", Val.vstr "knows")]).2.2.2.2
     (by decide)⟩

/-
C7: vector-store upsert batching and record shape.
-/

theorem batchesAux_flatten :
    ∀ (fuel n : Nat) (l : List String), 1 ≤ n → l.length ≤ fuel →
      (batchesAux fuel n l).flatten = l := by
  intro fuel
  induction fuel with
  | zero =>
    intro n l hn hl
    have h0 : l = [] := List.length_eq_zero.mp (Nat.le_zero.mp hl)
    subst h0
    rfl
  | succ f ih =>
    intro n l hn hl
    cases l with
    | nil => rfl
    | cons a as =>
      have hstep : batchesAux (f + 1) n (a :: as) =
          (a :: as).take n :: batchesAux f n ((a :: as).drop n) := rfl
      rw [hstep, List.flatten_cons]
      have hlen : ((a :: as).drop n).length ≤ f := by
        rw [List.length_drop]
        simp only [List.length_cons] at hl ⊢
        omega
      rw [ih n _ hn hlen, List.take_append_drop]

theorem batches_flatten (n : Nat) (l : List String) (hn : 1 ≤ n) :
    (batches n l).flatten = l :=
  batchesAux_flatten l.length n l hn (Nat.le_refl _)

theorem contentsOf_spec :
    ∀ (data : List (String × Fields)) (contents : List String),
      contentsOf data = some contents →
      contents.length = data.length ∧
      ∀ (i : Nat) (hi : i < data.length) (hi2 : i < contents.length),
        getField (data.get ⟨i, hi⟩).2 "content" =
          some (Val.vstr (contents.get ⟨i, hi2⟩)) := by
  intro data
  induction data with
  | nil =>
    intro contents h
    simp only [contentsOf, Option.some.injEq] at h
    subst h
    exact ⟨rfl, fun i hi => absurd hi (by simp)⟩
  | cons kv rest ih =>
    intro contents h
    cases hg : getField kv.2 "content" with
    | none => rw [contentsOf, hg] at h; cases h
    | some v =>
      cases v with
      | vnull => rw [contentsOf, hg] at h; cases h
      | vnum q => rw [contentsOf, hg] at h; cases h
      | vvec l => rw [contentsOf, hg] at h; cases h
      | vstr c =>
        cases hr : contentsOf rest with
        | none => rw [contentsOf, hg, hr] at h; cases h
        | some cs =>
          rw [contentsOf, hg, hr] at h
          simp only [Option.some.injEq] at h
          subst h
          obtain ⟨hlen, hpt⟩ := ih cs hr
          refine ⟨by simp [hlen], ?_⟩
          intro i hi hi2
          cases i with
          | zero => simpa using hg
          | succ j =>
            have hj : j < rest.length := by simpa using hi
            have hj2 : j < cs.length := by simpa using hi2
            simpa using hpt j hj hj2

/-- C7: vector-store upsert splits the contents into batches of up to
`max_batch_size`, embeds them, and concatenates the vectors in input
order, so the i-th written record receives the embedding of the i-th
input content; each written record consists only of the id, the
unix-timestamp `created_at`, the declared metadata fields, and the
vector — in particular the content text is not persisted (the reserved
keys are not themselves declared metadata fields). -/
theorem vupsert_spec (metaFields : List String) (maxBatch : Nat)
    (embed : String → List ℚ) (now : ℚ) (data : List (String × Fields))
    (contents : List String) (hb : 1 ≤ maxBatch)
    (hc : contentsOf data = some contents)
    (hid : ¬ "_id" ∈ metaFields) (hca : ¬ "created_at" ∈ metaFields)
    (hct : ¬ "content" ∈ metaFields) :
    ∃ out, vupsert metaFields maxBatch embed now data = some out ∧
      out.length = data.length ∧
      ∀ (i : Nat) (hi : i < data.length), ∃ (hi2 : i < out.length)
        (hi3 : i < contents.length),
        getField (data.get ⟨i, hi⟩).2 "content" =
          some (Val.vstr (contents.get ⟨i, hi3⟩)) ∧
        getField (out.get ⟨i, hi2⟩) "vector" =
          some (Val.vvec (embed (contents.get ⟨i, hi3⟩))) ∧
        getField (out.get ⟨i, hi2⟩) "_id" = some (Val.vstr (data.get ⟨i, hi⟩).1) ∧
        getField (out.get ⟨i, hi2⟩) "created_at" = some (Val.vnum now) ∧
        getField (out.get ⟨i, hi2⟩) "content" = none ∧
        (∀ key, ¬ key = "_id" → ¬ key = "created_at" → ¬ key = "vector" →
          ¬ key ∈ metaFields → getField (out.get ⟨i, hi2⟩) key = none) := by
  obtain ⟨hclen, hcpt⟩ := contentsOf_spec data contents hc
  have hemb : ((batches maxBatch contents).map (fun b => b.map embed)).flatten =
      contents.map embed := by
    rw [← List.map_flatten, batches_flatten maxBatch contents hb]
  refine ⟨_, by rw [vupsert, hc], ?_, ?_⟩
  · rw [hemb]
    simp [List.length_zipWith, hclen]
  · intro i hi
    have hi3 : i < contents.length := by rw [hclen]; exact hi
    have hi2 : i < (List.zipWith (fun d e => setField d "vector" (Val.vvec e))
        (data.map (fun kv =>
          setFields [("_id", Val.vstr kv.1), ("created_at", Val.vnum now)]
            (kv.2.filter (fun p => p.1 ∈ metaFields))))
        (((batches maxBatch contents).map (fun b => b.map embed)).flatten)).length := by
      rw [hemb]
      simp [List.length_zipWith, hclen]
      exact hi
    refine ⟨hi2, hi3, hcpt i hi hi3, ?_⟩
    have hget : (List.zipWith (fun d e => setField d "vector" (Val.vvec e))
        (data.map (fun kv =>
          setFields [("_id", Val.vstr kv.1), ("created_at", Val.vnum now)]
            (kv.2.filter (fun p => p.1 ∈ metaFields))))
        (((batches maxBatch contents).map (fun b => b.map embed)).flatten)).get ⟨i, hi2⟩ =
        setField
          (setFields [("_id", Val.vstr (data.get ⟨i, hi⟩).1),
              ("created_at", Val.vnum now)]
            ((data.get ⟨i, hi⟩).2.filter (fun p => p.1 ∈ metaFields)))
          "vector" (Val.vvec (embed (contents.get ⟨i, hi3⟩))) := by
      rw [List.get_zipWith]
      congr 1
      · rw [List.get_map]
      · have := hemb
        rw [List.get_of_eq hemb, List.get_map]
    rw [hget]
    have hupd : ∀ key, ¬ key ∈ metaFields →
        getField ((data.get ⟨i, hi⟩).2.filter (fun p => p.1 ∈ metaFields)) key = none := by
      intro key hkey
      rw [getField_eq_none_iff]
      intro p hp hpk
      exact hkey (hpk ▸ by simpa using (List.mem_filter.mp hp).2)
    refine ⟨?_, ?_, ?_, ?_⟩
    · rw [getField_setField_self]
    · rw [getField_setField_ne _ _ _ _ (by decide),
        getField_setFields_none _ _ _ (hupd "_id" hid)]
      simp [getField]
    · rw [getField_setField_ne _ _ _ _ (by decide),
        getField_setFields_none _ _ _ (hupd "created_at" hca)]
      simp [getField]
    constructor
    · rw [getField_setField_ne _ _ _ _ (by decide),
        getField_setFields_none _ _ _ (hupd "content" hct)]
      simp [getField]
    · intro key h1 h2 h3 h4
      rw [getField_setField_ne _ _ _ _ h3,
        getField_setFields_none _ _ _ (hupd key h4)]
      simp only [getField]
      rw [if_neg (fun hc : "_id" = key => h1 hc.symm),
        if_neg (fun hc : "created_at" = key => h2 hc.symm)]

/-- Witness for C7 at a concrete input: two records, batch size two. -/
theorem vupsert_spec_witness :
    ∃ out, vupsert ["src_id"] 2 (fun s => [(s.length : ℚ)]) 100 vupsertExample =
        some out ∧ out.length = 2 := by
  obtain ⟨out, h1, h2, _⟩ := vupsert_spec ["src_id"] 2 (fun s => [(s.length : ℚ)]) 100
    vupsertExample ["hello", "xy"] (by decide) rfl (by decide) (by decide) (by decide)
  exact ⟨out, h1, h2.trans rfl⟩

/-
C6: vector query threshold, vector stripping, result shape.
-/

theorem vectorQuery_mem (cands : List Fields) (scoreOf : Fields → ℚ) (t : ℚ)
    (r : Fields) (hr : r ∈ vectorQuery cands scoreOf t) :
    ∃ d, d ∈ cands ∧ t ≤ scoreOf d ∧
      r = formatResult (removeField (setField d "score" (Val.vnum (scoreOf d))) "vector") := by
  simp only [vectorQuery] at hr
  obtain ⟨a, ha, rfl⟩ := List.mem_map.mp hr
  obtain ⟨b, hb, rfl⟩ := List.mem_map.mp ha
  obtain ⟨hbm, hp⟩ := List.mem_filter.mp hb
  obtain ⟨d, hd, rfl⟩ := List.mem_map.mp hbm
  refine ⟨d, hd, ?_, rfl⟩
  rw [vscoreGE, getField_setField_self] at hp
  exact of_decide_eq_true hp

theorem formatKeys_nodup (x y z : Val) :
    (List.map Prod.fst [("id", x), ("distance", y), ("created_at", z)]).Nodup := by
  have h : List.map Prod.fst [("id", x), ("distance", y), ("created_at", z)] =
      ["id", "distance", "created_at"] := rfl
  rw [h]
  decide

theorem getField_formatResult_distance (b : Fields) :
    getField (formatResult b) "distance" = some ((getField b "score").getD Val.vnull) := by
  rw [formatResult]
  exact getField_setFields_some _ b "distance"
    ((getField b "score").getD Val.vnull) (formatKeys_nodup _ _ _) rfl

theorem getField_formatResult_created_at (b : Fields) :
    getField (formatResult b) "created_at" =
      some ((getField b "created_at").getD Val.vnull) := by
  rw [formatResult]
  exact getField_setFields_some _ b "created_at"
    ((getField b "created_at").getD Val.vnull) (formatKeys_nodup _ _ _) rfl

theorem getField_formatResult_id (b : Fields) :
    getField (formatResult b) "id" = some ((getField b "_id").getD (Val.vstr "")) := by
  rw [formatResult]
  exact getField_setFields_some _ b "id"
    ((getField b "_id").getD (Val.vstr "")) (formatKeys_nodup _ _ _) rfl

theorem getField_formatResult_other (b : Fields) (key : String) (h3 : ¬ key = "id")
    (h4 : ¬ key = "distance") (h5 : ¬ key = "created_at") :
    getField (formatResult b) key = getField b key := by
  rw [formatResult]
  apply getField_setFields_none
  simp only [getField]
  rw [if_neg (fun hc : "id" = key => h3 hc.symm),
    if_neg (fun hc : "distance" = key => h4 hc.symm),
    if_neg (fun hc : "created_at" = key => h5 hc.symm)]

/-- C6: every result of a vector-store query carries a similarity score
at or above the configured threshold (so fewer than `top_k` results may
be returned), carries no raw stored vector field, and consists of the
stored fields of its candidate document plus the similarity score
(`distance`) and `created_at`. -/
theorem vector_query_threshold (cands : List Fields) (scoreOf : Fields → ℚ) (t : ℚ) :
    ∀ r ∈ vectorQuery cands scoreOf t,
      (∃ q : ℚ, t ≤ q ∧ getField r "distance" = some (Val.vnum q)) ∧
      getField r "vector" = none ∧
      (∃ d, d ∈ cands ∧ t ≤ scoreOf d ∧
        getField r "created_at" = some ((getField d "created_at").getD Val.vnull) ∧
        getField r "id" = some ((getField d "_id").getD (Val.vstr "")) ∧
        ∀ key, ¬ key = "score" → ¬ key = "vector" → ¬ key = "id" →
          ¬ key = "distance" → ¬ key = "created_at" →
          getField r key = getField d key) := by
  intro r hr
  obtain ⟨d, hd, hts, rfl⟩ := vectorQuery_mem cands scoreOf t r hr
  have hbase_score :
      getField (removeField (setField d "score" (Val.vnum (scoreOf d))) "vector")
        "score" = some (Val.vnum (scoreOf d)) := by
    rw [getField_removeField_ne _ _ _ (by decide), getField_setField_self]
  have hbase_vec :
      getField (removeField (setField d "score" (Val.vnum (scoreOf d))) "vector")
        "vector" = none := getField_removeField_self _ _
  have hbase_other : ∀ key, ¬ key = "score" → ¬ key = "vector" →
      getField (removeField (setField d "score" (Val.vnum (scoreOf d))) "vector")
        key = getField d key := by
    intro key h1 h2
    rw [getField_removeField_ne _ _ _ h2, getField_setField_ne _ _ _ _ h1]
  refine ⟨⟨scoreOf d, hts, ?_⟩, ?_, d, hd, hts, ?_, ?_, ?_⟩
  · rw [getField_formatResult_distance, hbase_score]
    rfl
  · rw [getField_formatResult_other _ "vector" (by decide) (by decide) (by decide),
      hbase_vec]
  · rw [getField_formatResult_created_at,
      hbase_other "created_at" (by decide) (by decide)]
  · rw [getField_formatResult_id, hbase_other "_id" (by decide) (by decide)]
  · intro key h1 h2 h3 h4 h5
    rw [getField_formatResult_other _ key h3 h4 h5, hbase_other key h1 h2]

/-- Witness for C6: a one-candidate query at threshold 1 and score 2. -/
theorem vector_query_threshold_witness :
    (∃ q : ℚ, 1 ≤ q ∧
      getField (formatResult (removeField (setField vqueryDoc "score" (Val.vnum 2))
        "vector")) "distance" = some (Val.vnum q)) ∧
    getField (formatResult (removeField (setField vqueryDoc "score" (Val.vnum 2))
        "vector")) "vector" = none := by
  have h := vector_query_threshold [vqueryDoc] (fun _ => 2) 1
    (formatResult (removeField (setField vqueryDoc "score" (Val.vnum 2)) "vector"))
    (by decide)
  exact ⟨h.1, h.2.1⟩

/-
C4: edge deduplication by the source-target key in subgraph extraction.
-/

theorem findDoc_mem :
    ∀ (g : Graph) (nid : String) (d : NodeDoc), findDoc g nid = some d →
      d ∈ g ∧ d.id = nid := by
  intro g nid
  induction g with
  | nil => intro d h; cases h
  | cons x xs ih =>
    intro d h
    by_cases hx : x.id = nid
    · rw [findDoc, if_pos hx] at h
      cases h
      exact ⟨List.mem_cons_self x xs, hx⟩
    · rw [findDoc, if_neg hx] at h
      obtain ⟨h1, h2⟩ := ih d h
      exact ⟨List.mem_cons_of_mem x h1, h2⟩

theorem addEdgeStep_seenE_mono (nid : String) (acc : KG × List String) (e : GEdge)
    (a : String) (h : a ∈ acc.2) : a ∈ (addEdgeStep nid acc e).2 := by
  by_cases hk : edgeKey nid e.target ∈ acc.2
  · simpa [addEdgeStep, hk] using h
  · simp [addEdgeStep, hk, h]

theorem addEdgesOf_seenE_mono (nid : String) :
    ∀ (es : List GEdge) (acc : KG × List String) (a : String),
      a ∈ acc.2 → a ∈ (addEdgesOf nid es acc).2 := by
  intro es
  induction es with
  | nil => intro acc a h; exact h
  | cons e es ih =>
    intro acc a h
    rw [addEdgesOf, List.foldl_cons]
    exact ih (addEdgeStep nid acc e) a (addEdgeStep_seenE_mono nid acc e a h)

theorem addEdgesOf_key_mem (nid : String) :
    ∀ (es : List GEdge) (acc : KG × List String) (e : GEdge), e ∈ es →
      edgeKey nid e.target ∈ (addEdgesOf nid es acc).2 := by
  intro es
  induction es with
  | nil => intro acc e he; cases he
  | cons e1 es ih =>
    intro acc e he
    rw [addEdgesOf, List.foldl_cons]
    rcases List.mem_cons.mp he with rfl | he2
    · have hstep : edgeKey nid e.target ∈ (addEdgeStep nid acc e).2 := by
        by_cases hk : edgeKey nid e.target ∈ acc.2
        · simp [addEdgeStep, hk]
        · simp [addEdgeStep, hk]
      exact addEdgesOf_seenE_mono nid es (addEdgeStep nid acc e) _ hstep
    · exact ih (addEdgeStep nid acc e1) e he2

theorem addEdgeStep_inv (g : Graph) (nid : String) (e : GEdge) (kg : KG)
    (seenN seenE : List String) (hin : kgInv g kg seenN seenE)
    (hd : ∃ d ∈ g, d.id = nid ∧ e ∈ d.edges) :
    kgInv g (addEdgeStep nid (kg, seenE) e).1 seenN (addEdgeStep nid (kg, seenE) e).2 ∧
    (addEdgeStep nid (kg, seenE) e).1.nodes = kg.nodes := by
  obtain ⟨h1, h2, h3, h4, h5⟩ := hin
  by_cases hk : edgeKey nid e.target ∈ seenE
  · constructor
    · simpa [addEdgeStep, hk] using ⟨h1, h2, h3, h4, h5⟩
    · simp [addEdgeStep, hk]
  · have hk2 : ¬ edgeKey nid e.target ∈ (kg, seenE).2 := hk
    refine ⟨⟨?_, ?_, ?_, ?_, ?_⟩, ?_⟩
    · simpa [addEdgeStep, hk2] using h1
    · simp only [addEdgeStep, hk2, if_false, List.map_append]
      rw [h2]
      rfl
    · exact h3
    · simp only [addEdgeStep, hk2, if_false]
      simp [List.nodup_append, h4, hk]
    · simp only [addEdgeStep, hk2, if_false]
      intro e' he'
      rcases List.mem_append.mp he' with hold | hnew
      · exact h5 e' hold
      · obtain ⟨d, hdg, hdid, hde⟩ := hd
        rw [List.mem_singleton] at hnew
        subst hnew
        exact ⟨rfl, d, hdg, hdid, e, hde, rfl⟩
    · simp [addEdgeStep, hk2]

theorem addEdgesOf_inv (g : Graph) (nid : String) :
    ∀ (es : List GEdge) (kg : KG) (seenN seenE : List String),
      kgInv g kg seenN seenE →
      (∃ d ∈ g, d.id = nid ∧ ∀ e ∈ es, e ∈ d.edges) →
      kgInv g (addEdgesOf nid es (kg, seenE)).1 seenN (addEdgesOf nid es (kg, seenE)).2 ∧
      (addEdgesOf nid es (kg, seenE)).1.nodes = kg.nodes := by
  intro es
  induction es with
  | nil => intro kg seenN seenE hin _; exact ⟨hin, rfl⟩
  | cons e es ih =>
    intro kg seenN seenE hin hd
    obtain ⟨d, hdg, hdid, hde⟩ := hd
    have hstep := addEdgeStep_inv g nid e kg seenN seenE hin
      ⟨d, hdg, hdid, hde e (by simp)⟩
    rw [addEdgesOf, List.foldl_cons]
    have hrec := ih (addEdgeStep nid (kg, seenE) e).1 seenN
      (addEdgeStep nid (kg, seenE) e).2 hstep.1
      ⟨d, hdg, hdid, fun e' he' => hde e' (by simp [he'])⟩
    exact ⟨hrec.1, hrec.2.trans hstep.2⟩

theorem starStep_seenE_mono (acc : KG × List String × List String) (d : NodeDoc)
    (a : String) (h : a ∈ acc.2.2) : a ∈ (starStep acc d).2.2 := by
  by_cases hn : d.id ∈ acc.2.1
  · simpa [starStep, hn] using h
  · simp only [starStep, hn, if_false]
    exact addEdgesOf_seenE_mono d.id d.edges _ a h

theorem starFold_seenE_mono :
    ∀ (docs : List NodeDoc) (acc : KG × List String × List String) (a : String),
      a ∈ acc.2.2 → a ∈ (docs.foldl starStep acc).2.2 := by
  intro docs
  induction docs with
  | nil => intro acc a h; exact h
  | cons d docs ih =>
    intro acc a h
    rw [List.foldl_cons]
    exact ih (starStep acc d) a (starStep_seenE_mono acc d a h)

theorem starStep_inv (g : Graph) (d : NodeDoc) (acc : KG × List String × List String)
    (hd : d ∈ g) (hin : kgInv g acc.1 acc.2.1 acc.2.2) :
    kgInv g (starStep acc d).1 (starStep acc d).2.1 (starStep acc d).2.2 := by
  obtain ⟨h1, h2, h3, h4, h5⟩ := hin
  by_cases hn : d.id ∈ acc.2.1
  · simpa [starStep, hn] using ⟨h1, h2, h3, h4, h5⟩
  · have hmid : kgInv g { acc.1 with nodes := acc.1.nodes ++ [⟨d.id, [d.id], d.attrs⟩] }
        (acc.2.1 ++ [d.id]) acc.2.2 := by
      refine ⟨?_, h2, ?_, h4, h5⟩
      · simp [h1]
      · simp [List.nodup_append, h3, hn]
    have h9 := addEdgesOf_inv g d.id d.edges
      { acc.1 with nodes := acc.1.nodes ++ [⟨d.id, [d.id], d.attrs⟩] }
      (acc.2.1 ++ [d.id]) acc.2.2 hmid ⟨d, hd, rfl, fun e he => he⟩
    simp only [starStep, hn, if_false]
    exact h9.1

theorem starFold_inv (g : Graph) :
    ∀ (docs : List NodeDoc) (acc : KG × List String × List String),
      (∀ d ∈ docs, d ∈ g) → kgInv g acc.1 acc.2.1 acc.2.2 →
      kgInv g (docs.foldl starStep acc).1 (docs.foldl starStep acc).2.1
        (docs.foldl starStep acc).2.2 := by
  intro docs
  induction docs with
  | nil => intro acc _ hin; exact hin
  | cons d docs ih =>
    intro acc hsub hin
    rw [List.foldl_cons]
    exact ih (starStep acc d) (fun x hx => hsub x (by simp [hx]))
      (starStep_inv g d acc (hsub d (by simp)) hin)

theorem starFold_key_mem :
    ∀ (docs : List NodeDoc) (acc : KG × List String × List String)
      (s : NodeDoc) (e : GEdge),
      s ∈ docs → e ∈ s.edges → ¬ s.id ∈ acc.2.1 → (docs.map NodeDoc.id).Nodup →
      edgeKey s.id e.target ∈ (docs.foldl starStep acc).2.2 := by
  intro docs
  induction docs with
  | nil => intro acc s e hs; cases hs
  | cons d docs ih =>
    intro acc s e hs he hsn hnd
    simp only [List.map_cons, List.nodup_cons] at hnd
    rw [List.foldl_cons]
    rcases List.mem_cons.mp hs with rfl | hs2
    · have hkey : edgeKey s.id e.target ∈ (starStep acc s).2.2 := by
        simp only [starStep, hsn, if_false]
        exact addEdgesOf_key_mem s.id s.edges _ e he
      exact starFold_seenE_mono docs (starStep acc s) _ hkey
    · have hsid : ¬ s.id = d.id :=
        fun hc => hnd.1 (hc ▸ List.mem_map_of_mem NodeDoc.id hs2)
      have hsn2 : ¬ s.id ∈ (starStep acc d).2.1 := by
        by_cases hn : d.id ∈ acc.2.1
        · simpa [starStep, hn] using hsn
        · simp only [starStep, hn, if_false]
          intro hc
          rcases List.mem_append.mp hc with hc1 | hc1
          · exact hsn hc1
          · rw [List.mem_singleton] at hc1
            exact hsid hc1
      exact ih (starStep acc d) s e hs2 he hsn2 hnd.2

theorem countP_eid_eq_count (l : List KGEdge) (c : String) :
    l.countP (fun e => e.eid = c) = (l.map KGEdge.eid).count c := by
  induction l with
  | nil => rfl
  | cons x xs ih =>
    rw [List.countP_cons, List.map_cons, List.count_cons, ih]
    by_cases hx : x.eid = c
    · simp [hx]
    · simp [hx, fun hc : c = x.eid => hx hc.symm]

theorem kgInv_pair_count_le_one (g : Graph) (kg : KG) (seenN seenE : List String)
    (hin : kgInv g kg seenN seenE) (s t : String) :
    (kg.edges.filter (fun e => e.source = s ∧ e.target = t)).length ≤ 1 := by
  obtain ⟨h1, h2, h3, h4, h5⟩ := hin
  rw [← List.countP_eq_length_filter]
  have hmono : kg.edges.countP (fun e => decide (e.source = s ∧ e.target = t)) ≤
      kg.edges.countP (fun e => e.eid = edgeKey s t) := by
    apply List.countP_mono_left
    intro e he hp
    simp only [decide_eq_true_eq] at hp ⊢
    rw [(h5 e he).1, hp.1, hp.2]
  refine le_trans hmono ?_
  rw [countP_eid_eq_count, h2]
  exact List.nodup_iff_count_le_one.mp h4 (edgeKey s t)

theorem kgInv_init (g : Graph) : kgInv g ⟨[], []⟩ [] [] :=
  ⟨rfl, rfl, List.nodup_nil, List.nodup_nil, by simp⟩

theorem boundedAccum_inv (g : Graph) (start : NodeDoc) (connected : List NodeDoc)
    (hstart : start ∈ g) (hconn : ∀ d ∈ connected, d ∈ g) :
    ∃ seenN seenE, kgInv g (boundedAccum start connected) seenN seenE := by
  have hinv1 : kgInv g ⟨[⟨start.id, [start.id], start.attrs⟩], []⟩ [start.id] [] :=
    ⟨by simp, rfl, by simp, by simp, by simp⟩
  have h2 := addEdgesOf_inv g start.id start.edges
    ⟨[⟨start.id, [start.id], start.attrs⟩], []⟩ [start.id] [] hinv1
    ⟨start, hstart, rfl, fun e he => he⟩
  have h3 := starFold_inv g connected
    ((addEdgesOf start.id start.edges (⟨[⟨start.id, [start.id], start.attrs⟩], []⟩,
        ([] : List String))).1,
      [start.id],
      (addEdgesOf start.id start.edges (⟨[⟨start.id, [start.id], start.attrs⟩], []⟩,
        ([] : List String))).2) hconn h2.1
  exact ⟨_, _, h3⟩

theorem get_knowledge_graph_inv (g : Graph) (label : String) (maxDepth : Nat) :
    ∃ seenN seenE, kgInv g (get_knowledge_graph g label maxDepth) seenN seenE := by
  by_cases hl : label = "*"
  · rw [get_knowledge_graph, if_pos hl]
    exact ⟨_, _, starFold_inv g g (⟨[], []⟩, [], []) (fun d hd => hd) (kgInv_init g)⟩
  · rw [get_knowledge_graph, if_neg hl]
    cases hf : findDoc g label with
    | none => exact ⟨[], [], kgInv_init g⟩
    | some start =>
      obtain ⟨hmem, _⟩ := findDoc_mem g label start hf
      exact boundedAccum_inv g start (connectedDocs g start maxDepth) hmem
        (fun d hd => (List.mem_filter.mp hd).1)

/-- C4: in both branches of subgraph extraction, nodes are deduplicated
by id and edges are deduplicated by the key `source ++ "-" ++ target`,
which ignores the relation: the result never carries two edges for the
same (source, target) pair, and a graph holding two parallel edges with
distinct relations between one pair yields exactly one result edge for
that pair (that last part under node ids without duplicates and a
collision-free dedup key for the pair). -/
theorem subgraph_edge_dedup :
    (∀ (g : Graph) (label : String) (maxDepth : Nat) (s t : String),
      ((get_knowledge_graph g label maxDepth).edges.filter
        (fun e => e.source = s ∧ e.target = t)).length ≤ 1) ∧
    (∀ (g : Graph) (label : String) (maxDepth : Nat),
      ((get_knowledge_graph g label maxDepth).nodes.map KGNode.id).Nodup) ∧
    (∀ (g : Graph) (maxDepth : Nat) (s : NodeDoc) (e1 e2 : GEdge),
      (g.map NodeDoc.id).Nodup → s ∈ g → e1 ∈ s.edges → e2 ∈ s.edges →
      e1.target = e2.target → ¬ e1 = e2 →
      (∀ d ∈ g, ∀ ed ∈ d.edges, edgeKey d.id ed.target = edgeKey s.id e1.target →
        d.id = s.id ∧ ed.target = e1.target) →
      ((get_knowledge_graph g "*" maxDepth).edges.filter
        (fun e => e.source = s.id ∧ e.target = e1.target)).length = 1) := by
  have hA : ∀ (g : Graph) (label : String) (maxDepth : Nat) (s t : String),
      ((get_knowledge_graph g label maxDepth).edges.filter
        (fun e => e.source = s ∧ e.target = t)).length ≤ 1 := by
    intro g label maxDepth s t
    obtain ⟨seenN, seenE, hin⟩ := get_knowledge_graph_inv g label maxDepth
    exact kgInv_pair_count_le_one g _ seenN seenE hin s t
  refine ⟨hA, ?_, ?_⟩
  · intro g label maxDepth
    obtain ⟨seenN, seenE, hin⟩ := get_knowledge_graph_inv g label maxDepth
    rw [hin.1]
    exact hin.2.2.1
  · intro g maxDepth s e1 e2 hnd hs he1 he2 htgt hne hnc
    have hstar : get_knowledge_graph g "*" maxDepth = starFold g := by
      rw [get_knowledge_graph, if_pos rfl]
    have hinv := starFold_inv g g (⟨[], []⟩, [], []) (fun d hd => hd) (kgInv_init g)
    have hkey := starFold_key_mem g (⟨[], []⟩, [], []) s e1 hs he1 (by simp) hnd
    obtain ⟨h1, h2, h3, h4, h5⟩ := hinv
    rw [← h2] at hkey
    obtain ⟨ed, hed, hedk⟩ := List.mem_map.mp hkey
    have hpass : ed.source = s.id ∧ ed.target = e1.target := by
      obtain ⟨heid, d', hd'g, hd'id, ed', hed', hed't⟩ := h5 ed hed
      have hcoll := hnc d' hd'g ed' hed' (by rw [hd'id, hed't, ← heid, hedk])
      exact ⟨by rw [← hd'id, hcoll.1], by rw [← hed't, hcoll.2]⟩
    have hmemf : ed ∈ (starFold g).edges.filter
        (fun e => e.source = s.id ∧ e.target = e1.target) := by
      rw [starFold]
      exact List.mem_filter.mpr ⟨hed, by simp [hpass.1, hpass.2]⟩
    have hge : 1 ≤ ((get_knowledge_graph g "*" maxDepth).edges.filter
        (fun e => e.source = s.id ∧ e.target = e1.target)).length := by
      rw [hstar]
      exact List.length_pos_of_mem hmemf
    exact Nat.le_antisymm (hA g "*" maxDepth s.id e1.target) hge

/-- Witness for C4: a graph with two parallel edges A→B carrying
distinct relations yields exactly one result edge for the pair. -/
theorem subgraph_edge_dedup_witness :
    ((get_knowledge_graph parallelExample "*" 5).edges.filter
      (fun e => e.source = "A" ∧ e.target = "B")).length = 1 :=
  subgraph_edge_dedup.2.2 parallelExample 5
    ⟨"A", [], [⟨"B", [("relation", Val.vstr "r1")]⟩, ⟨"B", [("relation", Val.vstr "r2")]⟩]⟩
    ⟨"B", [("relation", Val.vstr "r1")]⟩ ⟨"B", [("relation", Val.vstr "r2")]⟩
    (by decide) (by decide) (by decide) (by decide) (by decide) (by decide) (by decide)

end MongoImpl
